import Mathlib

/-!
Verification of `tools/butteraugli_pnorm.cc` from the libjxl repository.

The two public operations are embedded shallowly:

* `ComputeDistanceP` — the Minkowski p-norm aggregation over a distance map,
  with the fixed-width border-exclusion policy, the fast path for `|p - 3| < 1e-6`
  and the slow generic path.  Pixel values are modelled as exact rationals
  (the C code reads `float`s); the accumulated power sums are therefore exact
  rational sums, and the final `pow` calls are real-number powers (`Real.rpow`).
  The vector-lane accumulation of the C code is, in exact arithmetic, just the
  sum over the included region (reassociation of an exact sum), so the sums are
  written directly over the included index rectangle.

* `ComputeDistance2` — the chroma-weighted sum of squared differences between
  two three-plane images.  The C function first converts both inputs to sRGB;
  that conversion is external to this file (the spec places the canonical
  encoding on the caller), so the model takes the already-canonical planes.
  The fatal dimension check `JXL_CHECK(SameSize(...))` is modelled by an
  `Option` result: `none` is the aborted call.
-/

namespace Butteraugli

/-- A distance map: a `xsize × ysize` grid of values, `pix y x` being the
value the C code reads as `distmap.ConstRow(y)[x]`.  Values outside the
`y < ysize`, `x < xsize` range are never read by the embedded code. -/
structure ImageF where
  xsize : ℕ
  ysize : ℕ
  pix : ℕ → ℕ → ℚ

/-- The one parameter of `ButteraugliParams` that `ComputeDistanceP` reads. -/
structure ButteraugliParams where
  approximate_border : Bool

/-- The border width actually applied by `ComputeDistanceP`:
`border = approximate_border ? 8 : 0`, then forced to `0` when
`xsize ≤ 2*border` or `ysize ≤ 2*border` (lines 43-46 of the source). -/
def borderOf (m : ImageF) (params : ButteraugliParams) : ℕ :=
  let b : ℕ := if params.approximate_border then 8 else 0
  if m.xsize ≤ 2 * b ∨ m.ysize ≤ 2 * b then 0 else b

/-- The sum of the `k`-th powers of the map values over the included region
`y ∈ [border, ysize - border)`, `x ∈ [border, xsize - border)`.  The C code
accumulates this in vector lanes plus a scalar tail; in exact arithmetic that
is this double sum. -/
def includedSumPow (m : ImageF) (border k : ℕ) : ℚ :=
  ∑ y ∈ Finset.Ico border (m.ysize - border),
    ∑ x ∈ Finset.Ico border (m.xsize - border), m.pix y x ^ k

/-- The fast path of `ComputeDistanceP` (taken when `|p - 3| < 1e-6`):
power sums of `d^3`, `d^6`, `d^12` over the included region, each multiplied by
`onePerPixels = 1/(ysize*xsize)` and raised to `1/(p*1)`, `1/(p*2)`, `1/(p*4)`
respectively, then averaged (lines 49-113 of the source). -/
noncomputable def fastDistanceP (m : ImageF) (border : ℕ) (p : ℝ) : ℝ :=
  let onePerPixels : ℝ := 1 / ((m.ysize : ℝ) * (m.xsize : ℝ))
  ((onePerPixels * (includedSumPow m border 3 : ℝ)) ^ (1 / (p * 1)) +
   (onePerPixels * (includedSumPow m border 6 : ℝ)) ^ (1 / (p * 2)) +
   (onePerPixels * (includedSumPow m border 12 : ℝ)) ^ (1 / (p * 4))) / 3

/-- The slow generic path of `ComputeDistanceP`: for each included pixel the C
code computes `d2 = pow(d, p)` and accumulates `d2`, `d2*d2` and `(d2*d2)^2`,
i.e. sums of `d^p`, `(d^p)^2` and `((d^p)^2)^2`; each sum is multiplied by
`onePerPixels` and raised to `1/(p*(1<<i))` for `i = 0, 1, 2`, then the three
values are averaged (lines 114-137 of the source). -/
noncomputable def slowDistanceP (m : ImageF) (border : ℕ) (p : ℝ) : ℝ :=
  let onePerPixels : ℝ := 1 / ((m.ysize : ℝ) * (m.xsize : ℝ))
  let s0 : ℝ := ∑ y ∈ Finset.Ico border (m.ysize - border),
      ∑ x ∈ Finset.Ico border (m.xsize - border), (m.pix y x : ℝ) ^ p
  let s1 : ℝ := ∑ y ∈ Finset.Ico border (m.ysize - border),
      ∑ x ∈ Finset.Ico border (m.xsize - border), ((m.pix y x : ℝ) ^ p) ^ 2
  let s2 : ℝ := ∑ y ∈ Finset.Ico border (m.ysize - border),
      ∑ x ∈ Finset.Ico border (m.xsize - border), (((m.pix y x : ℝ) ^ p) ^ 2) ^ 2
  ((onePerPixels * s0) ^ (1 / (p * 1)) +
   (onePerPixels * s1) ^ (1 / (p * 2)) +
   (onePerPixels * s2) ^ (1 / (p * 4))) / 3

open scoped Classical in
/-- `ComputeDistanceP(distmap, params, p)`: compute the applied border, then
take the fast path when `|p - 3| < 1e-6` and the slow path otherwise. -/
noncomputable def ComputeDistanceP (m : ImageF) (params : ButteraugliParams)
    (p : ℝ) : ℝ :=
  if |p - 3| < 1 / 1000000 then fastDistanceP m (borderOf m params) p
  else slowDistanceP m (borderOf m params) p

/-- A three-plane color image in the canonical (sRGB) encoding; `plane c y x`
is the value the C code reads as `srgb->ConstPlaneRow(c, y)[x]`. -/
structure Image3F where
  xsize : ℕ
  ysize : ℕ
  plane : Fin 3 → ℕ → ℕ → ℚ

/-- The fixed plane weights of `ComputeDistance2`:
`{1.0f / 8, 6.0f / 8, 1.0f / 8}` (line 166 of the source). -/
def weights : Fin 3 → ℚ := ![1 / 8, 6 / 8, 1 / 8]

/-- `ComputeDistance2(ib1, ib2)`: the dimension check `JXL_CHECK(SameSize)` is
modelled as `none` (the aborted call); otherwise the weighted sum of squared
per-pixel differences `(a - b)^2 * weight[c]` over all three planes and all
pixels, with no normalization (lines 157-191 of the source). -/
def ComputeDistance2 (a b : Image3F) : Option ℚ :=
  if a.xsize = b.xsize ∧ a.ysize = b.ysize then
    some (∑ c : Fin 3, ∑ y ∈ Finset.range a.ysize, ∑ x ∈ Finset.range a.xsize,
      (a.plane c y x - b.plane c y x) ^ 2 * weights c)
  else none

/-- The constant map: every pixel equals `c`. -/
def constMap (W H : ℕ) (c : ℚ) : ImageF := ⟨W, H, fun _ _ => c⟩

/-- The all-zero image of a given size. -/
def zeroImage (W H : ℕ) : Image3F := ⟨W, H, fun _ _ _ => 0⟩

/-- Second image of the weighted-plane scenario: plane 1 is the constant 2,
planes 0 and 2 are zero, so it differs from `zeroImage 4 4` by the constant
delta 2 exactly on plane 1. -/
def deltaImage : Image3F := ⟨4, 4, fun c _ _ => if c = 1 then 2 else 0⟩

/-- A 17×17 map whose single interior pixel (the border width is 8) equals 1
and whose whole width-8 border band holds the outlier value 100. -/
def cexPix (y x : ℕ) : ℚ := if y = 8 ∧ x = 8 then 1 else 100

/-- The 17×17 outlier-border map built from `cexPix`. -/
def cexMap : ImageF := ⟨17, 17, cexPix⟩

/-- The 1×1 map whose single pixel equals 2. -/
def oneMap : ImageF := ⟨1, 1, fun _ _ => 2⟩

/-- The number of pixels actually included in the sums when a border of the
given width is excluded. -/
def includedPixelCount (m : ImageF) (border : ℕ) : ℕ :=
  (m.ysize - border - border) * (m.xsize - border - border)

open scoped Classical in
/-- Spec-side definition for the normalization step: the same two paths as
`ComputeDistanceP`, but with the divisor of the three power sums taken as an
explicit parameter `count` ("normalize each sum by the pixel count"), so that
the full-pixel-count divisor and the included-pixel-count divisor can be
compared. -/
noncomputable def distancePWithCount (m : ImageF) (border : ℕ) (p : ℝ)
    (count : ℝ) : ℝ :=
  if |p - 3| < 1 / 1000000 then
    ((1 / count * (includedSumPow m border 3 : ℝ)) ^ (1 / (p * 1)) +
     (1 / count * (includedSumPow m border 6 : ℝ)) ^ (1 / (p * 2)) +
     (1 / count * (includedSumPow m border 12 : ℝ)) ^ (1 / (p * 4))) / 3
  else
    ((1 / count * ∑ y ∈ Finset.Ico border (m.ysize - border),
        ∑ x ∈ Finset.Ico border (m.xsize - border), (m.pix y x : ℝ) ^ p) ^ (1 / (p * 1)) +
     (1 / count * ∑ y ∈ Finset.Ico border (m.ysize - border),
        ∑ x ∈ Finset.Ico border (m.xsize - border), ((m.pix y x : ℝ) ^ p) ^ 2) ^ (1 / (p * 2)) +
     (1 / count * ∑ y ∈ Finset.Ico border (m.ysize - border),
        ∑ x ∈ Finset.Ico border (m.xsize - border), (((m.pix y x : ℝ) ^ p) ^ 2) ^ 2) ^ (1 / (p * 4))) / 3

/-- An exponent inside the fast-path tolerance window but different from 3:
`pCex = 3 + 1/2000000`, so `|pCex - 3| = 1/2000000 < 1e-6`. -/
noncomputable def pCex : ℝ := 3 + 1 / 2000000

open scoped Classical in
/-- The fast-path value as claim C3 states it: power sums of `d^3`, `d^6`,
`d^12` over the included region, normalized by the pixel count, taken to the
fixed powers `1/(3*1)`, `1/(3*2)`, `1/(3*4)` — independent of `p`.
(Spec-side definition, for comparison with the code.) -/
noncomputable def claimFastPathThree (m : ImageF) (border : ℕ) : ℝ :=
  ((1 / ((m.ysize : ℝ) * (m.xsize : ℝ)) *
      (includedSumPow m border 3 : ℝ)) ^ (1 / ((3 : ℝ) * 1)) +
   (1 / ((m.ysize : ℝ) * (m.xsize : ℝ)) *
      (includedSumPow m border 6 : ℝ)) ^ (1 / ((3 : ℝ) * 2)) +
   (1 / ((m.ysize : ℝ) * (m.xsize : ℝ)) *
      (includedSumPow m border 12 : ℝ)) ^ (1 / ((3 : ℝ) * 4))) / 3

/-- The fast-path value as the code computes it, with the sums spelled as the
spec words them (`Σd³`, `Σ(d³)²`, `Σ((d³)²)²`) and the roots `1/(p*1)`,
`1/(p*2)`, `1/(p*4)` taken at the actual exponent `p` of the call. -/
noncomputable def specFastPathP (m : ImageF) (border : ℕ) (p : ℝ) : ℝ :=
  ((1 / ((m.ysize : ℝ) * (m.xsize : ℝ)) *
      ((∑ y ∈ Finset.Ico border (m.ysize - border),
        ∑ x ∈ Finset.Ico border (m.xsize - border),
          m.pix y x ^ 3 : ℚ) : ℝ)) ^ (1 / (p * 1)) +
   (1 / ((m.ysize : ℝ) * (m.xsize : ℝ)) *
      ((∑ y ∈ Finset.Ico border (m.ysize - border),
        ∑ x ∈ Finset.Ico border (m.xsize - border),
          (m.pix y x ^ 3) ^ 2 : ℚ) : ℝ)) ^ (1 / (p * 2)) +
   (1 / ((m.ysize : ℝ) * (m.xsize : ℝ)) *
      ((∑ y ∈ Finset.Ico border (m.ysize - border),
        ∑ x ∈ Finset.Ico border (m.xsize - border),
          ((m.pix y x ^ 3) ^ 2) ^ 2 : ℚ) : ℝ)) ^ (1 / (p * 4))) / 3

/-- With `approximate_border = false` the applied border is always 0. -/
lemma borderOf_false (m : ImageF) : borderOf m ⟨false⟩ = 0 := by
  unfold borderOf
  exact ite_self 0

/-- With `approximate_border = true` the applied border is 8 unless the image
is at most 16 pixels wide or tall, in which case it is forced to 0. -/
lemma borderOf_true (m : ImageF) :
    borderOf m ⟨true⟩ = if m.xsize ≤ 16 ∨ m.ysize ≤ 16 then 0 else 8 := rfl

lemma borderOf_true_small (m : ImageF) (h : m.xsize ≤ 16 ∨ m.ysize ≤ 16) :
    borderOf m ⟨true⟩ = 0 := by
  rw [borderOf_true]
  exact if_pos h

lemma borderOf_true_large (m : ImageF) (hx : 16 < m.xsize) (hy : 16 < m.ysize) :
    borderOf m ⟨true⟩ = 8 := by
  rw [borderOf_true]
  exact if_neg (by omega)

/-- When `|p - 3| < 1e-6`, `ComputeDistanceP` takes the fast path. -/
lemma computeDistanceP_fast (m : ImageF) (params : ButteraugliParams) (p : ℝ)
    (hp : |p - 3| < 1 / 1000000) :
    ComputeDistanceP m params p = fastDistanceP m (borderOf m params) p := by
  unfold ComputeDistanceP
  exact if_pos hp

/-- The included power sum over a constant map. -/
lemma includedSumPow_const (W H b k : ℕ) (c : ℚ) :
    includedSumPow (constMap W H c) b k =
      ((H - b - b : ℕ) : ℚ) * ((W - b - b : ℕ) : ℚ) * c ^ k := by
  unfold includedSumPow constMap
  simp [Finset.sum_const, Nat.card_Ico, mul_assoc]

/-- C5: for a map with width or height at most 16 (at most twice the border
width 8), `approximate_border = true` behaves identically to
`approximate_border = false`: the border is silently forced to 0. -/
theorem distanceP_small_image_border (m : ImageF) (p : ℝ)
    (h : m.xsize ≤ 16 ∨ m.ysize ≤ 16) :
    ComputeDistanceP m ⟨true⟩ p = ComputeDistanceP m ⟨false⟩ p := by
  unfold ComputeDistanceP
  rw [borderOf_true_small m h, borderOf_false m]

/-- Witness for C5: a 4×4 constant map at a generic exponent. -/
theorem distanceP_small_image_border_witness :
    ComputeDistanceP (constMap 4 4 1) ⟨true⟩ 5 =
      ComputeDistanceP (constMap 4 4 1) ⟨false⟩ 5 :=
  distanceP_small_image_border (constMap 4 4 1) 5 (Or.inl (by decide))

/-- At `p = 3` the slow generic path computes exactly the same three power
sums and exponents as the fast specialized path: `pow(d, 3)` is `d*d*d`. -/
lemma slowDistanceP_eq_fast_at_three (m : ImageF) (b : ℕ) :
    slowDistanceP m b 3 = fastDistanceP m b 3 := by
  unfold slowDistanceP fastDistanceP includedSumPow
  have h3 : ∀ q : ℚ, (q : ℝ) ^ (3 : ℝ) = (q : ℝ) ^ (3 : ℕ) := fun q => by
    rw [show ((3 : ℝ)) = ((3 : ℕ) : ℝ) by norm_num, Real.rpow_natCast]
  have e0 : ∀ y x : ℕ, (m.pix y x : ℝ) ^ (3 : ℝ) = ((m.pix y x ^ (3 : ℕ) : ℚ) : ℝ) :=
    fun y x => by rw [h3]; push_cast; ring
  have e1 : ∀ y x : ℕ, ((m.pix y x : ℝ) ^ (3 : ℝ)) ^ 2 = ((m.pix y x ^ (6 : ℕ) : ℚ) : ℝ) :=
    fun y x => by rw [h3]; push_cast; ring
  have e2 : ∀ y x : ℕ,
      (((m.pix y x : ℝ) ^ (3 : ℝ)) ^ 2) ^ 2 = ((m.pix y x ^ (12 : ℕ) : ℚ) : ℝ) :=
    fun y x => by rw [h3]; push_cast; ring
  push_cast
  rw [Finset.sum_congr rfl fun y _ => Finset.sum_congr rfl fun x _ => e0 y x,
    Finset.sum_congr rfl fun y _ => Finset.sum_congr rfl fun x _ => e1 y x,
    Finset.sum_congr rfl fun y _ => Finset.sum_congr rfl fun x _ => e2 y x]
  push_cast
  ring

/-- C6: at `p = 3` the slow generic path and the fast specialized path agree
within relative tolerance `1e-6` on every map and border setting (they are in
fact exactly equal in exact arithmetic). -/
theorem distanceP_slow_fast_agree (m : ImageF) (b : ℕ) :
    |slowDistanceP m b 3 - fastDistanceP m b 3| ≤
      1 / 1000000 * |fastDistanceP m b 3| := by
  rw [slowDistanceP_eq_fast_at_three, sub_self, abs_zero]
  positivity

lemma constMap_xsize (W H : ℕ) (c : ℚ) : (constMap W H c).xsize = W := rfl

lemma constMap_ysize (W H : ℕ) (c : ℚ) : (constMap W H c).ysize = H := rfl

/-- The fast path on a constant map with border 0 returns the constant:
each normalized power sum is `c^k` and each rooted value is `c`. -/
lemma fastDistanceP_const (W H : ℕ) (c : ℚ) (hW : 0 < W) (hH : 0 < H)
    (hc : 0 ≤ c) : fastDistanceP (constMap W H c) 0 3 = (c : ℝ) := by
  have hc' : (0 : ℝ) ≤ (c : ℝ) := by exact_mod_cast hc
  have hHW : ((H : ℝ)) * (W : ℝ) ≠ 0 :=
    mul_ne_zero (Nat.cast_ne_zero.mpr hH.ne') (Nat.cast_ne_zero.mpr hW.ne')
  have hkey : ∀ k : ℕ,
      (1 : ℝ) / ((H : ℝ) * (W : ℝ)) *
          ((includedSumPow (constMap W H c) 0 k : ℚ) : ℝ) = (c : ℝ) ^ k := by
    intro k
    rw [includedSumPow_const]
    push_cast
    rw [Nat.sub_zero, Nat.sub_zero, Nat.sub_zero, Nat.sub_zero]
    field_simp
  simp only [fastDistanceP, constMap_xsize, constMap_ysize]
  rw [hkey 3, hkey 6, hkey 12,
    show (1 : ℝ) / (3 * 1) = ((3 : ℕ) : ℝ)⁻¹ by norm_num,
    show (1 : ℝ) / (3 * 2) = ((6 : ℕ) : ℝ)⁻¹ by norm_num,
    show (1 : ℝ) / (3 * 4) = ((12 : ℕ) : ℝ)⁻¹ by norm_num,
    Real.pow_rpow_inv_natCast hc' (by norm_num : (3 : ℕ) ≠ 0),
    Real.pow_rpow_inv_natCast hc' (by norm_num : (6 : ℕ) ≠ 0),
    Real.pow_rpow_inv_natCast hc' (by norm_num : (12 : ℕ) ≠ 0)]
  ring

/-- The fast path on the all-zero map returns 0 for every border width. -/
lemma fastDistanceP_zero (W H b : ℕ) : fastDistanceP (constMap W H 0) b 3 = 0 := by
  have hz : ∀ k : ℕ, k ≠ 0 → includedSumPow (constMap W H 0) b k = 0 := by
    intro k hk
    rw [includedSumPow_const]
    simp [zero_pow hk]
  simp only [fastDistanceP, constMap_xsize, constMap_ysize]
  rw [hz 3 (by norm_num), hz 6 (by norm_num), hz 12 (by norm_num)]
  push_cast
  rw [mul_zero, Real.zero_rpow (by norm_num), Real.zero_rpow (by norm_num),
    Real.zero_rpow (by norm_num)]
  norm_num

/-- C4: on a `W×H` map whose pixels all equal `c ≥ 0`, `ComputeDistanceP` with
`p = 3` and border width 0 returns exactly `c` (exact arithmetic); and on the
all-zero map of any size it returns exactly 0 for any parameter setting. -/
theorem distanceP_const_field (W H : ℕ) (c : ℚ) (params : ButteraugliParams) :
    (0 < W → 0 < H → 0 ≤ c →
      ComputeDistanceP (constMap W H c) ⟨false⟩ 3 = (c : ℝ)) ∧
    ComputeDistanceP (constMap W H 0) params 3 = 0 := by
  constructor
  · intro hW hH hc
    rw [computeDistanceP_fast _ _ _ (by norm_num), borderOf_false]
    exact fastDistanceP_const W H c hW hH hc
  · rw [computeDistanceP_fast _ _ _ (by norm_num)]
    exact fastDistanceP_zero W H _

/-- Witness for C4 at a 2×2 map of constant 2 and the 2×2 zero map. -/
theorem distanceP_const_field_witness :
    ComputeDistanceP (constMap 2 2 2) ⟨false⟩ 3 = ((2 : ℚ) : ℝ) ∧
    ComputeDistanceP (constMap 2 2 0) ⟨true⟩ 3 = 0 :=
  ⟨(distanceP_const_field 2 2 2 ⟨true⟩).1 (by norm_num) (by norm_num) (by norm_num),
   (distanceP_const_field 2 2 2 ⟨true⟩).2⟩

lemma cexMap_xsize : cexMap.xsize = 17 := rfl

lemma cexMap_ysize : cexMap.ysize = 17 := rfl

/-- With border 8, the included region of `cexMap` is the single pixel (8,8)
of value 1, so every included power sum is 1. -/
lemma includedSumPow_cexMap (k : ℕ) : includedSumPow cexMap 8 k = 1 := by
  have hy : Finset.Ico 8 (cexMap.ysize - 8) = {8} := by decide
  have hx : Finset.Ico 8 (cexMap.xsize - 8) = {8} := by decide
  unfold includedSumPow
  rw [hy, hx, Finset.sum_singleton, Finset.sum_singleton]
  norm_num [cexMap, cexPix]

/-- `ComputeDistanceP` on `cexMap` with the border applied is strictly below
the interior constant 1: the sums see one pixel of value 1, but each sum is
divided by the full pixel count 289, so each rooted term is `(1/289)^(1/(3k))`,
strictly less than 1. -/
lemma cexMap_value_lt_one : ComputeDistanceP cexMap ⟨true⟩ 3 < 1 := by
  rw [computeDistanceP_fast _ _ _ (by norm_num),
    borderOf_true_large cexMap (by decide) (by decide)]
  simp only [fastDistanceP, cexMap_xsize, cexMap_ysize]
  rw [includedSumPow_cexMap, includedSumPow_cexMap, includedSumPow_cexMap]
  push_cast [mul_one]
  have t : ∀ e : ℝ, 0 < e → ((1 : ℝ) / (17 * 17)) ^ e < 1 := fun e he =>
    Real.rpow_lt_one (by norm_num) (by norm_num) he
  have t1 := t (1 / (3 * 1)) (by norm_num)
  have t2 := t (1 / (3 * 2)) (by norm_num)
  have t3 := t (1 / (3 * 4)) (by norm_num)
  linarith

/-- C1 (amended): when both dimensions exceed 16 and all interior pixels
(outside the width-8 border band) equal `c`, `ComputeDistanceP` with
`approximate_border = true` and `p = 3` returns the same value as on the all-`c`
constant map of the same size — the border values do not influence the
result. -/
theorem distanceP_border_independent (m : ImageF) (c : ℚ)
    (hW : 16 < m.xsize) (hH : 16 < m.ysize)
    (hint : ∀ y < m.ysize, ∀ x < m.xsize,
      8 ≤ y → y < m.ysize - 8 → 8 ≤ x → x < m.xsize - 8 → m.pix y x = c) :
    ComputeDistanceP m ⟨true⟩ 3 =
      ComputeDistanceP (constMap m.xsize m.ysize c) ⟨true⟩ 3 := by
  rw [computeDistanceP_fast _ _ _ (by norm_num),
    computeDistanceP_fast _ _ _ (by norm_num),
    borderOf_true_large m hW hH,
    borderOf_true_large (constMap m.xsize m.ysize c) hW hH]
  have hs : ∀ k : ℕ,
      includedSumPow m 8 k = includedSumPow (constMap m.xsize m.ysize c) 8 k := by
    intro k
    unfold includedSumPow constMap
    dsimp only
    refine Finset.sum_congr rfl fun y hy => Finset.sum_congr rfl fun x hx => ?_
    obtain ⟨hy1, hy2⟩ := Finset.mem_Ico.mp hy
    obtain ⟨hx1, hx2⟩ := Finset.mem_Ico.mp hx
    rw [hint y (by omega) x (by omega) hy1 hy2 hx1 hx2]
  simp only [fastDistanceP, constMap_xsize, constMap_ysize]
  rw [hs 3, hs 6, hs 12]

/-- Witness for the amended C1 at the concrete 17×17 outlier-border map. -/
theorem distanceP_border_independent_witness :
    ComputeDistanceP cexMap ⟨true⟩ 3 =
      ComputeDistanceP (constMap cexMap.xsize cexMap.ysize 1) ⟨true⟩ 3 :=
  distanceP_border_independent cexMap 1 (by decide) (by decide)
    (fun y _ x _ h1 h2 h3 h4 => by
      have h2' : y < 9 := h2
      have h4' : x < 9 := h4
      have hy : y = 8 := by omega
      have hx : x = 8 := by omega
      subst hy; subst hx; rfl)

/-- Counterexample for C1 as stated: on the 17×17 map whose interior constant
is `c = 1` and whose width-8 border band holds the outlier 100, the result of
`ComputeDistanceP` with `approximate_border = true` and `p = 3` is not the
constant-field value `c = 1` (it is strictly smaller, because the sums are
normalized by the full pixel count 289 while only one pixel is included). -/
theorem distanceP_border_outlier_ne_const :
    ComputeDistanceP cexMap ⟨true⟩ 3 ≠ 1 :=
  ne_of_lt cexMap_value_lt_one

/-- C2: on both paths, `ComputeDistanceP` divides each accumulated power sum
by the full pixel count `ysize * xsize` — even when the border exclusion
shrinks the summed region — and never by the included pixel count: on the
17×17 outlier map with border 8 the included-count normalization would give a
different (larger) value. -/
theorem distanceP_divisor_full_pixel_count :
    (∀ (m : ImageF) (params : ButteraugliParams) (p : ℝ),
      ComputeDistanceP m params p =
        distancePWithCount m (borderOf m params) p
          ((m.ysize : ℝ) * (m.xsize : ℝ))) ∧
    distancePWithCount cexMap 8 3 ((includedPixelCount cexMap 8 : ℕ) : ℝ) ≠
      ComputeDistanceP cexMap ⟨true⟩ 3 := by
  constructor
  · intro m params p
    unfold ComputeDistanceP distancePWithCount fastDistanceP slowDistanceP
    rfl
  · have hcount : ((includedPixelCount cexMap 8 : ℕ) : ℝ) = 1 := by
      rw [show includedPixelCount cexMap 8 = 1 from rfl, Nat.cast_one]
    have hval : distancePWithCount cexMap 8 3 1 = 1 := by
      unfold distancePWithCount
      rw [if_pos (by norm_num)]
      rw [includedSumPow_cexMap, includedSumPow_cexMap, includedSumPow_cexMap]
      push_cast [mul_one]
      rw [div_one, Real.one_rpow, Real.one_rpow, Real.one_rpow]
      norm_num
    rw [hcount, hval]
    exact cexMap_value_lt_one.ne'

lemma oneMap_xsize : oneMap.xsize = 1 := rfl

lemma oneMap_ysize : oneMap.ysize = 1 := rfl

lemma includedSumPow_oneMap (k : ℕ) : includedSumPow oneMap 0 k = 2 ^ k := by
  have hy : Finset.Ico 0 (oneMap.ysize - 0) = {0} := by decide
  have hx : Finset.Ico 0 (oneMap.xsize - 0) = {0} := by decide
  unfold includedSumPow
  rw [hy, hx, Finset.sum_singleton, Finset.sum_singleton]
  rfl

/-- Counterexample for C3 as stated: at `p = pCex = 3 + 1/2000000` (inside the
1e-6 tolerance) on the 1×1 map of value 2, the code's fast path takes the
roots at `1/(pCex*k)`, yielding `2^(3/pCex) < 2`, while the claimed fixed
powers `1/(3*k)` would yield exactly 2. -/
theorem distanceP_fast_exponent_cex :
    |pCex - 3| < 1 / 1000000 ∧
    ComputeDistanceP oneMap ⟨false⟩ pCex ≠
      claimFastPathThree oneMap (borderOf oneMap ⟨false⟩) := by
  have hp : |pCex - 3| < 1 / 1000000 := by
    unfold pCex
    rw [show (3 : ℝ) + 1 / 2000000 - 3 = 1 / 2000000 by ring,
      abs_of_pos (by norm_num)]
    norm_num
  have hpne : pCex ≠ 0 := by unfold pCex; norm_num
  refine ⟨hp, ?_⟩
  rw [computeDistanceP_fast _ _ _ hp, borderOf_false]
  have hclaim : claimFastPathThree oneMap 0 = 2 := by
    simp only [claimFastPathThree, oneMap_xsize, oneMap_ysize]
    rw [includedSumPow_oneMap, includedSumPow_oneMap, includedSumPow_oneMap]
    push_cast
    rw [show (1 : ℝ) / (1 * 1) = 1 by norm_num, one_mul, one_mul, one_mul,
      show (1 : ℝ) / (3 * 1) = ((3 : ℕ) : ℝ)⁻¹ by norm_num,
      show (1 : ℝ) / (3 * 2) = ((6 : ℕ) : ℝ)⁻¹ by norm_num,
      show (1 : ℝ) / (3 * 4) = ((12 : ℕ) : ℝ)⁻¹ by norm_num,
      Real.pow_rpow_inv_natCast (by norm_num : (0 : ℝ) ≤ 2) (by norm_num : (3 : ℕ) ≠ 0),
      Real.pow_rpow_inv_natCast (by norm_num : (0 : ℝ) ≤ 2) (by norm_num : (6 : ℕ) ≠ 0),
      Real.pow_rpow_inv_natCast (by norm_num : (0 : ℝ) ≤ 2) (by norm_num : (12 : ℕ) ≠ 0)]
    norm_num
  have e1 : ((3 : ℕ) : ℝ) * (1 / (pCex * 1)) = 3 / pCex := by
    push_cast
    field_simp
  have e2 : ((6 : ℕ) : ℝ) * (1 / (pCex * 2)) = 3 / pCex := by
    push_cast
    field_simp
    ring
  have e3 : ((12 : ℕ) : ℝ) * (1 / (pCex * 4)) = 3 / pCex := by
    push_cast
    field_simp
    ring
  have hlt : (2 : ℝ) ^ ((3 : ℝ) / pCex) < 2 := by
    have h1 : (3 : ℝ) / pCex < 1 := by
      unfold pCex
      rw [div_lt_one (by norm_num)]
      norm_num
    calc (2 : ℝ) ^ ((3 : ℝ) / pCex) < 2 ^ (1 : ℝ) :=
          (Real.rpow_lt_rpow_left_iff (by norm_num)).mpr h1
      _ = 2 := Real.rpow_one 2
  have hval_lt : fastDistanceP oneMap 0 pCex < 2 := by
    simp only [fastDistanceP, oneMap_xsize, oneMap_ysize]
    rw [includedSumPow_oneMap, includedSumPow_oneMap, includedSumPow_oneMap]
    push_cast
    rw [show (1 : ℝ) / (1 * 1) = 1 by norm_num, one_mul, one_mul, one_mul,
      ← Real.rpow_natCast 2 3, ← Real.rpow_natCast 2 6, ← Real.rpow_natCast 2 12,
      ← Real.rpow_mul (by norm_num : (0 : ℝ) ≤ 2),
      ← Real.rpow_mul (by norm_num : (0 : ℝ) ≤ 2),
      ← Real.rpow_mul (by norm_num : (0 : ℝ) ≤ 2),
      e1, e2, e3]
    linarith
  rw [hclaim]
  exact ne_of_lt hval_lt

/-- C3 (amended): for every `p` with `|p - 3| < 1e-6`, `ComputeDistanceP`
takes the fast path, accumulating `Σd³`, `Σ(d³)²`, `Σ((d³)²)²` over the
included region and taking the normalized sums to the powers `1/(p*1)`,
`1/(p*2)`, `1/(p*4)` — at the actual `p` of the call, not at 3 — before
averaging the three rooted values. -/
theorem distanceP_fast_path_value (m : ImageF) (params : ButteraugliParams)
    (p : ℝ) (hp : |p - 3| < 1 / 1000000) :
    ComputeDistanceP m params p = specFastPathP m (borderOf m params) p := by
  rw [computeDistanceP_fast m params p hp]
  unfold fastDistanceP specFastPathP includedSumPow
  have h6 : ∀ y x : ℕ, m.pix y x ^ (6 : ℕ) = (m.pix y x ^ 3) ^ 2 :=
    fun y x => by ring
  have h12 : ∀ y x : ℕ, m.pix y x ^ (12 : ℕ) = ((m.pix y x ^ 3) ^ 2) ^ 2 :=
    fun y x => by ring
  rw [Finset.sum_congr rfl fun y _ => Finset.sum_congr rfl fun x _ => h6 y x,
    Finset.sum_congr rfl fun y _ => Finset.sum_congr rfl fun x _ => h12 y x]

/-- Witness for the amended C3 at `p = 3` on the 1×1 map of value 2. -/
theorem distanceP_fast_path_value_witness :
    |(3 : ℝ) - 3| < 1 / 1000000 ∧
    ComputeDistanceP oneMap ⟨false⟩ 3 =
      specFastPathP oneMap (borderOf oneMap ⟨false⟩) 3 :=
  ⟨by norm_num, distanceP_fast_path_value oneMap ⟨false⟩ 3 (by norm_num)⟩

/-- C9: for every image `A`, `ComputeDistance2(A, A)` returns exactly 0:
the dimension check passes trivially and every per-pixel difference is zero in
all three planes. -/
theorem distance2_self (a : Image3F) : ComputeDistance2 a a = some 0 := by
  unfold ComputeDistance2
  rw [if_pos ⟨rfl, rfl⟩]
  simp

/-- C7: whenever the two images disagree in width or in height,
`ComputeDistance2` hits the fatal dimension check `JXL_CHECK(SameSize(...))`
and does not return a value (modelled as `none`). -/
theorem distance2_size_mismatch (a b : Image3F)
    (h : a.xsize ≠ b.xsize ∨ a.ysize ≠ b.ysize) :
    ComputeDistance2 a b = none := by
  unfold ComputeDistance2
  rw [if_neg (by tauto)]

/-- Witness for C7: a 4×4 image against a 5×5 image aborts. -/
theorem distance2_size_mismatch_witness :
    ComputeDistance2 (zeroImage 4 4) (zeroImage 5 5) = none :=
  distance2_size_mismatch (zeroImage 4 4) (zeroImage 5 5) (Or.inl (by decide))

/-- C10: for same-sized images, `ComputeDistance2` returns a value, and that
value is nonnegative: it is a sum of squared differences multiplied by the
nonnegative plane weights. -/
theorem distance2_nonneg (a b : Image3F) (hx : a.xsize = b.xsize)
    (hy : a.ysize = b.ysize) :
    (ComputeDistance2 a b).isSome = true ∧ 0 ≤ (ComputeDistance2 a b).getD 0 := by
  have hsum : (0 : ℚ) ≤ ∑ c : Fin 3, ∑ y ∈ Finset.range a.ysize,
      ∑ x ∈ Finset.range a.xsize,
        (a.plane c y x - b.plane c y x) ^ 2 * weights c := by
    refine Finset.sum_nonneg fun c _ => Finset.sum_nonneg fun y _ =>
      Finset.sum_nonneg fun x _ => ?_
    have hw : 0 ≤ weights c := by fin_cases c <;> norm_num [weights]
    exact mul_nonneg (sq_nonneg _) hw
  have heq : ComputeDistance2 a b = some (∑ c : Fin 3,
      ∑ y ∈ Finset.range a.ysize, ∑ x ∈ Finset.range a.xsize,
        (a.plane c y x - b.plane c y x) ^ 2 * weights c) := by
    unfold ComputeDistance2
    rw [if_pos ⟨hx, hy⟩]
  rw [heq]
  exact ⟨rfl, hsum⟩

/-- Witness for C10 at two concrete same-sized images. -/
theorem distance2_nonneg_witness :
    (ComputeDistance2 (zeroImage 4 4) deltaImage).isSome = true ∧
      0 ≤ (ComputeDistance2 (zeroImage 4 4) deltaImage).getD 0 :=
  distance2_nonneg (zeroImage 4 4) deltaImage rfl rfl

/-- C8: for two 4×4 images that agree on planes 0 and 2 and whose plane 1
differs by the constant delta 2 at every pixel, `ComputeDistance2` returns
`16 * 2^2 * (6/8) = 48`. -/
theorem distance2_weighted_plane (a b : Image3F)
    (hax : a.xsize = 4) (hay : a.ysize = 4) (hbx : b.xsize = 4) (hby : b.ysize = 4)
    (h0 : ∀ y < 4, ∀ x < 4, b.plane 0 y x = a.plane 0 y x)
    (h2 : ∀ y < 4, ∀ x < 4, b.plane 2 y x = a.plane 2 y x)
    (h1 : ∀ y < 4, ∀ x < 4, b.plane 1 y x = a.plane 1 y x + 2) :
    ComputeDistance2 a b = some 48 := by
  unfold ComputeDistance2
  rw [if_pos ⟨by rw [hax, hbx], by rw [hay, hby]⟩, hax, hay, Fin.sum_univ_three]
  have e0 : ∑ y ∈ Finset.range 4, ∑ x ∈ Finset.range 4,
      (a.plane 0 y x - b.plane 0 y x) ^ 2 * weights 0 = 0 := by
    refine Finset.sum_eq_zero fun y hy => Finset.sum_eq_zero fun x hx => ?_
    rw [h0 y (Finset.mem_range.mp hy) x (Finset.mem_range.mp hx)]
    ring
  have e2 : ∑ y ∈ Finset.range 4, ∑ x ∈ Finset.range 4,
      (a.plane 2 y x - b.plane 2 y x) ^ 2 * weights 2 = 0 := by
    refine Finset.sum_eq_zero fun y hy => Finset.sum_eq_zero fun x hx => ?_
    rw [h2 y (Finset.mem_range.mp hy) x (Finset.mem_range.mp hx)]
    ring
  have e1 : ∑ y ∈ Finset.range 4, ∑ x ∈ Finset.range 4,
      (a.plane 1 y x - b.plane 1 y x) ^ 2 * weights 1 = 48 := by
    have hrow : ∀ y ∈ Finset.range 4,
        (∑ x ∈ Finset.range 4, (a.plane 1 y x - b.plane 1 y x) ^ 2 * weights 1)
          = 12 := by
      intro y hy
      have hterm : ∀ x ∈ Finset.range 4,
          (a.plane 1 y x - b.plane 1 y x) ^ 2 * weights 1 = 3 := by
        intro x hx
        rw [h1 y (Finset.mem_range.mp hy) x (Finset.mem_range.mp hx),
          show a.plane 1 y x - (a.plane 1 y x + 2) = -2 by ring]
        norm_num [weights]
      rw [Finset.sum_congr rfl hterm]
      norm_num
    rw [Finset.sum_congr rfl hrow]
    norm_num
  rw [e0, e1, e2]
  norm_num

/-- Witness for C8 at the concrete zero image and the plane-1 delta image. -/
theorem distance2_weighted_plane_witness :
    ComputeDistance2 (zeroImage 4 4) deltaImage = some 48 :=
  distance2_weighted_plane (zeroImage 4 4) deltaImage rfl rfl rfl rfl
    (by simp [deltaImage, zeroImage]) (by simp [deltaImage, zeroImage])
    (by simp [deltaImage, zeroImage])

end Butteraugli
